import Mathlib

/-!
Verification of the CLinq sequence library (CLinq.hpp).

A `CLinqCollection<TElement>` wraps a `std::vector<TElement>`; we embed it as a
`List α`.  Operations that can throw `CLinqException` are embedded as functions
into `Except String`, carrying the exact message strings thrown by the source.
All other operations are pure functions on lists, translated clause by clause
from the C++ member functions.
-/

namespace CLinq

variable {α : Type} {κ : Type} {ν : Type}

/-- Message thrown by `ThrowIfEmpty` (CLinq.hpp line 679). -/
def emptyMsg : String := "Collection is empty."

/-- Message thrown by `Single` when more than one element is present (line 446). -/
def multipleMsg : String := "Collection contains more than 1 element."

/-- Message thrown by `Skip` and `SkipLast` (lines 459, 472). -/
def cannotSkipMsg : String := "Cannot skip more elements than exist in collection."

/-- Message thrown by `Take` and `TakeLast` (lines 526, 542). -/
def cannotTakeMsg : String := "Cannot take more elements than exist in collection."

/-- Message built by `ThrowIfOutOfRange` (lines 669-671): three string literals
concatenated with the index and the size; the source has no space before
"but", which the embedding reproduces. -/
def outOfRangeMsg (index size : Nat) : String :=
  "Index was out of range." ++ "Attempted to access index " ++ toString index
    ++ "but collection contains " ++ toString size ++ " elements."

/-- Embeds the private helper `VectorContains` (lines 659-663): `std::find`
compares each element of the vector to the value with element equality. -/
def VectorContains [DecidableEq α] (v : List α) (value : α) : Bool :=
  v.any (fun element => decide (element = value))

/-- Embeds `At` (lines 281-287): `ThrowIfEmpty()` first, then
`ThrowIfOutOfRange(index)` (which throws when `index >= size`), then the
unchecked element access `_elements[index]`, which the two guards have made
in bounds. -/
def At (xs : List α) (index : Nat) : Except String α :=
  if xs.length = 0 then Except.error emptyMsg
  else if h : xs.length ≤ index then Except.error (outOfRangeMsg index xs.length)
  else Except.ok (xs.get ⟨index, by omega⟩)

/-- Embeds `Single` (lines 441-450): `ThrowIfEmpty()` first, then the
`size > 1` check, then `_elements[0]`. -/
def Single (xs : List α) : Except String α :=
  if h0 : xs.length = 0 then Except.error emptyMsg
  else if 1 < xs.length then Except.error multipleMsg
  else Except.ok (xs.get ⟨0, by omega⟩)

/-- Embeds `Skip` (lines 455-463): throws when `numberOfElements > size`,
else returns the vector `(begin + n, end)`, i.e. the list with the first
`n` elements dropped. -/
def Skip (xs : List α) (numberOfElements : Nat) : Except String (List α) :=
  if xs.length < numberOfElements then Except.error cannotSkipMsg
  else Except.ok (xs.drop numberOfElements)

/-- Embeds `SkipLast` (lines 468-476): throws when `numberOfElements > size`,
else returns the vector `(begin, end - n)`, i.e. the first `size - n`
elements. -/
def SkipLast (xs : List α) (numberOfElements : Nat) : Except String (List α) :=
  if xs.length < numberOfElements then Except.error cannotSkipMsg
  else Except.ok (xs.take (xs.length - numberOfElements))

/-- Embeds `Take` (lines 522-533): throws when `numberOfElements > size`,
else copies the vector and `resize`s it down to `n` elements, i.e. keeps the
first `n` elements. -/
def Take (xs : List α) (numberOfElements : Nat) : Except String (List α) :=
  if xs.length < numberOfElements then Except.error cannotTakeMsg
  else Except.ok (xs.take numberOfElements)

/-- Embeds `TakeLast` (lines 538-546): throws when `numberOfElements > size`,
else returns the vector `(end - n, end)`, i.e. the last `n` elements. -/
def TakeLast (xs : List α) (numberOfElements : Nat) : Except String (List α) :=
  if xs.length < numberOfElements then Except.error cannotTakeMsg
  else Except.ok (xs.drop (xs.length - numberOfElements))

/-- C1: each of `Skip(n)`, `Take(n)`, `SkipLast(n)`, `TakeLast(n)` raises the
InvalidOperation error (the "Cannot skip/take" message) if and only if `n`
exceeds the collection's size, and when `n <= size`, `Take` returns the first
`n` elements, `Skip` the remaining `size - n`, `TakeLast` the last `n`, and
`SkipLast` the elements before that suffix. -/
theorem clinq_c1 (xs : List α) (n : Nat) :
    (Skip xs n = Except.error cannotSkipMsg ↔ xs.length < n) ∧
    (Take xs n = Except.error cannotTakeMsg ↔ xs.length < n) ∧
    (SkipLast xs n = Except.error cannotSkipMsg ↔ xs.length < n) ∧
    (TakeLast xs n = Except.error cannotTakeMsg ↔ xs.length < n) ∧
    (n ≤ xs.length →
      Take xs n = Except.ok (xs.take n) ∧
      Skip xs n = Except.ok (xs.drop n) ∧
      TakeLast xs n = Except.ok (xs.drop (xs.length - n)) ∧
      SkipLast xs n = Except.ok (xs.take (xs.length - n))) := by
  refine ⟨?_, ?_, ?_, ?_, ?_⟩
  · simp only [Skip]; split <;> simp_all
  · simp only [Take]; split <;> simp_all
  · simp only [SkipLast]; split <;> simp_all
  · simp only [TakeLast]; split <;> simp_all
  · intro h
    have h2 : ¬ (xs.length < n) := by omega
    simp [Take, Skip, TakeLast, SkipLast, h2]

/-- Witness for C1 at the collection `[10, 20, 30]` with `n = 2`. -/
theorem clinq_c1_witness :
    Take ([10, 20, 30] : List Nat) 2 = Except.ok [10, 20] ∧
    Skip ([10, 20, 30] : List Nat) 2 = Except.ok [30] ∧
    TakeLast ([10, 20, 30] : List Nat) 2 = Except.ok [20, 30] ∧
    SkipLast ([10, 20, 30] : List Nat) 2 = Except.ok [10] := by
  obtain ⟨h1, h2, h3, h4⟩ := (clinq_c1 ([10, 20, 30] : List Nat) 2).2.2.2.2 (by decide)
  exact ⟨h1, h2, h3, h4⟩

/-- C2: `At(i)` raises EmptyCollection on an empty collection for every index
(the range check is never reached), raises IndexOutOfRange when the collection
is nonempty and `i >= size`, and otherwise returns element `i`. -/
theorem clinq_c2 (xs : List α) (i : Nat) :
    (xs.length = 0 → At xs i = Except.error emptyMsg) ∧
    (0 < xs.length → xs.length ≤ i → At xs i = Except.error (outOfRangeMsg i xs.length)) ∧
    (∀ h : i < xs.length, At xs i = Except.ok (xs.get ⟨i, h⟩)) := by
  refine ⟨?_, ?_, ?_⟩
  · intro h
    simp [At, h]
  · intro hpos hle
    have h0 : ¬ (xs.length = 0) := by omega
    simp [At, h0, hle]
  · intro h
    have h0 : ¬ (xs.length = 0) := by omega
    have h1 : ¬ (xs.length ≤ i) := by omega
    simp [At, h0, h1]

/-- Witness for C2: the spec's examples `[1,2,3,4].At(4)` (IndexOutOfRange),
`Empty().At(1)` (EmptyCollection), and an in-range read. -/
theorem clinq_c2_witness :
    At ([1, 2, 3, 4] : List Nat) 4 = Except.error (outOfRangeMsg 4 4) ∧
    At ([] : List Nat) 1 = Except.error emptyMsg ∧
    At ([1, 2, 3, 4] : List Nat) 2 = Except.ok 3 := by
  refine ⟨?_, ?_, ?_⟩
  · exact (clinq_c2 ([1, 2, 3, 4] : List Nat) 4).2.1 (by decide) (by decide)
  · exact (clinq_c2 ([] : List Nat) 1).1 (by decide)
  · exact (clinq_c2 ([1, 2, 3, 4] : List Nat) 2).2.2 (by decide)

/-- C3: `Single()` raises EmptyCollection when the collection is empty, raises
MultipleElements when the size is greater than 1, and returns the sole element
of a singleton collection. -/
theorem clinq_c3 (xs : List α) :
    (xs.length = 0 → Single xs = Except.error emptyMsg) ∧
    (1 < xs.length → Single xs = Except.error multipleMsg) ∧
    (∀ x : α, xs = [x] → Single xs = Except.ok x) := by
  refine ⟨?_, ?_, ?_⟩
  · intro h
    simp [Single, h]
  · intro h
    have h0 : ¬ (xs.length = 0) := by omega
    simp [Single, h0, h]
  · intro x hx
    subst hx
    simp [Single]

/-- Witness for C3: the spec's examples `[1].Single()` returns 1,
`[1,2].Single()` raises MultipleElements, `Empty().Single()` raises
EmptyCollection. -/
theorem clinq_c3_witness :
    Single ([1] : List Nat) = Except.ok 1 ∧
    Single ([1, 2] : List Nat) = Except.error multipleMsg ∧
    Single ([] : List Nat) = Except.error emptyMsg := by
  refine ⟨?_, ?_, ?_⟩
  · exact (clinq_c3 ([1] : List Nat)).2.2 1 rfl
  · exact (clinq_c3 ([1, 2] : List Nat)).2.1 (by decide)
  · exact (clinq_c3 ([] : List Nat)).1 (by decide)

/-- Embeds `operator+` (lines 146-164): a fresh vector of size
`size + other.size` is filled positionally, position `i` receiving
`_elements[i]` when `i < size` and `collection._elements[i - size]`
otherwise (the second loop advances `index` from 0 in step with `i`). -/
def opAdd (xs ys : List α) : List α :=
  List.ofFn (fun i : Fin (xs.length + ys.length) =>
    if h : i.val < xs.length then xs.get ⟨i.val, h⟩
    else ys.get ⟨i.val - xs.length, by have hi := i.isLt; omega⟩)

/-- Embeds `Concat` (lines 292-295): `return *this + collection`. -/
def Concat (xs ys : List α) : List α := opAdd xs ys

/-- The positional copy loops of `operator+` produce exactly list append. -/
theorem opAdd_eq_append (xs ys : List α) : opAdd xs ys = xs ++ ys := by
  apply List.ext_getElem
  · simp [opAdd]
  · intro i h1 h2
    simp only [opAdd, List.getElem_ofFn]
    rw [List.getElem_append]
    split <;> simp

/-- C4: the concatenation `A + B` has count `A.Count() + B.Count()`, its first
`A.Count()` elements are A's elements in order, the rest are B's elements in
order, and `Concat` is semantically identical to `operator+`.  (The embedding
is pure, so non-mutation of the operands is inherent.) -/
theorem clinq_c4 (xs ys : List α) :
    (opAdd xs ys).length = xs.length + ys.length ∧
    (opAdd xs ys).take xs.length = xs ∧
    (opAdd xs ys).drop xs.length = ys ∧
    Concat xs ys = opAdd xs ys := by
  refine ⟨?_, ?_, ?_, rfl⟩
  · rw [opAdd_eq_append]; simp
  · rw [opAdd_eq_append]; exact List.take_left xs ys
  · rw [opAdd_eq_append]; exact List.drop_left xs ys

/-- Embeds `Contains` (lines 300-303): `VectorContains(_elements, element)`. -/
def Contains [DecidableEq α] (xs : List α) (element : α) : Bool :=
  VectorContains xs element

/-- Embeds `Where` (lines 573-586): collects, in order, the elements for which
the match function returns true. -/
def Where (xs : List α) (matchFunction : α → Bool) : List α :=
  xs.filter matchFunction

/-- Embeds `Intersection` (lines 377-390): keeps each element of this
collection for which `VectorContains(_elements, element) &&
VectorContains(collection._elements, element)` holds. -/
def Intersection [DecidableEq α] (xs other : List α) : List α :=
  xs.filter (fun element => VectorContains xs element && VectorContains other element)

/-- Membership characterization of `VectorContains`. -/
theorem vectorContains_iff [DecidableEq α] (v : List α) (x : α) :
    VectorContains v x = true ↔ x ∈ v := by
  simp [VectorContains]

/-- C5: `Intersection(other)` equals `Where(e => other.Contains(e))` — a naive
per-element membership test (the first conjunct of the source's condition is
vacuous because the element is drawn from this collection), so it keeps, in
this collection's order and with duplicates preserved, exactly the elements
also present in `other`. -/
theorem clinq_c5 [DecidableEq α] (xs other : List α) :
    Intersection xs other = Where xs (fun element => Contains other element) ∧
    (∀ a, a ∈ Intersection xs other ↔ a ∈ xs ∧ a ∈ other) := by
  constructor
  · apply List.filter_congr
    intro a ha
    have hx : VectorContains xs a = true := (vectorContains_iff xs a).mpr ha
    simp [hx, Contains]
  · intro a
    simp only [Intersection, List.mem_filter, Bool.and_eq_true, vectorContains_iff]
    tauto

/-- Embeds the shared loop body of `Distinct` (lines 336-342) and `Union`
(lines 596-602): append the element to the accumulated vector unless it is
already contained. -/
def distinctStep [DecidableEq α] (acc : List α) (element : α) : List α :=
  if VectorContains acc element = true then acc else acc ++ [element]

/-- Embeds `Distinct` (lines 332-345): fold the loop body over the elements,
starting from an empty vector. -/
def Distinct [DecidableEq α] (xs : List α) : List α :=
  xs.foldl distinctStep []

/-- Embeds `Union` (lines 591-605): start from `Distinct()._elements` of this
collection and run the same append-if-absent loop over
`collection.Distinct()`. -/
def Union [DecidableEq α] (xs other : List α) : List α :=
  (Distinct other).foldl distinctStep (Distinct xs)

/-- Specification-side definition of first-occurrence deduplication: keep the
head, then deduplicate the tail with the later copies of the head removed. -/
def firstOccurrences [DecidableEq α] : List α → List α
  | [] => []
  | x :: rest => x :: (firstOccurrences rest).filter (fun y => !(decide (x = y)))

/-- A contained element leaves the accumulator unchanged. -/
theorem distinctStep_of_mem [DecidableEq α] {acc : List α} {e : α} (h : e ∈ acc) :
    distinctStep acc e = acc := by
  simp [distinctStep, (vectorContains_iff acc e).mpr h]

/-- Negative form of the membership characterization. -/
theorem vectorContains_eq_false [DecidableEq α] {acc : List α} {e : α} (h : e ∉ acc) :
    VectorContains acc e = false := by
  cases hvc : VectorContains acc e with
  | false => rfl
  | true => exact absurd ((vectorContains_iff acc e).mp hvc) h

/-- An absent element is appended to the accumulator. -/
theorem distinctStep_of_not_mem [DecidableEq α] {acc : List α} {e : α} (h : e ∉ acc) :
    distinctStep acc e = acc ++ [e] := by
  simp [distinctStep, vectorContains_eq_false h]

/-- Folding the append-if-absent loop from any accumulator appends exactly the
distinct elements not already present in the accumulator. -/
theorem foldl_distinctStep [DecidableEq α] (xs : List α) :
    ∀ acc : List α, xs.foldl distinctStep acc
      = acc ++ (Distinct xs).filter (fun e => !(VectorContains acc e)) := by
  induction xs with
  | nil =>
    intro acc
    simp [Distinct]
  | cons e rest ih =>
    intro acc
    have h0 : distinctStep ([] : List α) e = [e] := by
      simp [distinctStep, VectorContains]
    have hD : Distinct (e :: rest)
        = [e] ++ (Distinct rest).filter (fun a => !(VectorContains [e] a)) := by
      show (e :: rest).foldl distinctStep [] = _
      rw [List.foldl_cons, h0, ih [e]]
    by_cases hmem : e ∈ acc
    · rw [List.foldl_cons, distinctStep_of_mem hmem, ih acc, hD,
        List.filter_append, List.filter_filter]
      have hq : (!(VectorContains acc e)) = false := by
        simp [(vectorContains_iff acc e).mpr hmem]
      have hsingle : ([e].filter (fun a => !(VectorContains acc a))) = [] := by
        simp [List.filter_cons, hq]
      rw [hsingle, List.nil_append]
      congr 1
      apply List.filter_congr
      intro a _
      by_cases hea : e = a
      · subst hea
        simp [hq]
      · have : VectorContains [e] a = false := by
          simp [VectorContains, hea]
        simp [this]
    · rw [List.foldl_cons, distinctStep_of_not_mem hmem, ih (acc ++ [e]), hD,
        List.filter_append, List.filter_filter]
      have hq : (!(VectorContains acc e)) = true := by
        simp [vectorContains_eq_false hmem]
      have hsingle : ([e].filter (fun a => !(VectorContains acc a))) = [e] := by
        simp [List.filter_cons, hq]
      rw [hsingle, List.append_assoc, List.singleton_append]
      congr 2
      apply List.filter_congr
      intro a _
      simp [VectorContains, Bool.not_or, Bool.and_comm]

/-- Unfolding `Distinct` over a cons cell: keep the head, then drop the later
copies of the head from the deduplicated tail. -/
theorem distinct_cons [DecidableEq α] (x : α) (xs : List α) :
    Distinct (x :: xs) = x :: (Distinct xs).filter (fun y => !(decide (x = y))) := by
  have h0 : distinctStep ([] : List α) x = [x] := by
    simp [distinctStep, VectorContains]
  show (x :: xs).foldl distinctStep [] = _
  rw [List.foldl_cons, h0, foldl_distinctStep xs [x], List.singleton_append]
  congr 1
  apply List.filter_congr
  intro a _
  simp [VectorContains]

/-- The fold in the source computes exactly first-occurrence deduplication. -/
theorem distinct_eq_firstOccurrences [DecidableEq α] (xs : List α) :
    Distinct xs = firstOccurrences xs := by
  induction xs with
  | nil => rfl
  | cons x rest ih =>
    rw [distinct_cons, ih]
    rfl

/-- First-occurrence deduplication yields no duplicates. -/
theorem firstOccurrences_nodup [DecidableEq α] (xs : List α) :
    (firstOccurrences xs).Nodup := by
  induction xs with
  | nil => simp [firstOccurrences]
  | cons x rest ih =>
    simp only [firstOccurrences, List.nodup_cons]
    constructor
    · intro hmem
      have := (List.mem_filter.mp hmem).2
      simp at this
    · exact ih.filter _

/-- First-occurrence deduplication preserves membership. -/
theorem firstOccurrences_mem [DecidableEq α] (xs : List α) (a : α) :
    a ∈ firstOccurrences xs ↔ a ∈ xs := by
  induction xs with
  | nil => simp [firstOccurrences]
  | cons x rest ih =>
    simp only [firstOccurrences, List.mem_cons, List.mem_filter, ih]
    by_cases hax : a = x
    · simp [hax]
    · have hxa : ¬ (x = a) := fun h => hax h.symm
      simp [hax, hxa]

/-- First-occurrence deduplication fixes lists without duplicates. -/
theorem firstOccurrences_of_nodup [DecidableEq α] {xs : List α} (h : xs.Nodup) :
    firstOccurrences xs = xs := by
  induction xs with
  | nil => rfl
  | cons x rest ih =>
    obtain ⟨hx, hrest⟩ := List.nodup_cons.mp h
    simp only [firstOccurrences, ih hrest]
    congr 1
    apply List.filter_eq_self.mpr
    intro a ha
    have hxa : ¬ (x = a) := fun hh => hx (hh ▸ ha)
    simp [hxa]

/-- The result of `Distinct` has no duplicates. -/
theorem distinct_nodup [DecidableEq α] (xs : List α) : (Distinct xs).Nodup := by
  rw [distinct_eq_firstOccurrences]
  exact firstOccurrences_nodup xs

/-- `Distinct` fixes lists without duplicates. -/
theorem distinct_of_nodup [DecidableEq α] {xs : List α} (h : xs.Nodup) :
    Distinct xs = xs := by
  rw [distinct_eq_firstOccurrences]
  exact firstOccurrences_of_nodup h

/-- C6: `Distinct()` computes the unique elements in order of first occurrence
(it equals the first-occurrence deduplication, has no duplicates, and keeps
exactly the original members), and it is idempotent. -/
theorem clinq_c6 [DecidableEq α] (xs : List α) :
    Distinct xs = firstOccurrences xs ∧
    (Distinct xs).Nodup ∧
    (∀ a, a ∈ Distinct xs ↔ a ∈ xs) ∧
    Distinct (Distinct xs) = Distinct xs := by
  refine ⟨distinct_eq_firstOccurrences xs, distinct_nodup xs, ?_, ?_⟩
  · intro a
    rw [distinct_eq_firstOccurrences]
    exact firstOccurrences_mem xs a
  · exact distinct_of_nodup (distinct_nodup xs)

/-- C10: the two-phase `Union` equals `Distinct` of the concatenation `X + Y`,
its result never contains duplicates, and `Union` with an empty collection is
`Distinct` of the receiver. -/
theorem clinq_c10 [DecidableEq α] (xs ys : List α) :
    Union xs ys = Distinct (opAdd xs ys) ∧
    (Union xs ys).Nodup ∧
    Union xs [] = Distinct xs := by
  have hU : Union xs ys = Distinct (xs ++ ys) := by
    have hl : Union xs ys
        = Distinct xs ++ (Distinct (Distinct ys)).filter
            (fun e => !(VectorContains (Distinct xs) e)) :=
      foldl_distinctStep (Distinct ys) (Distinct xs)
    have hr : Distinct (xs ++ ys)
        = Distinct xs ++ (Distinct ys).filter
            (fun e => !(VectorContains (Distinct xs) e)) := by
      show (xs ++ ys).foldl distinctStep [] = _
      rw [List.foldl_append]
      exact foldl_distinctStep ys (xs.foldl distinctStep [])
    rw [hl, hr, distinct_of_nodup (distinct_nodup ys)]
  refine ⟨?_, ?_, rfl⟩
  · rw [hU, opAdd_eq_append]
  · rw [hU]
    exact distinct_nodup (xs ++ ys)

/-- Embeds `TakeWhile` (lines 551-568): collect elements while the match
function returns true, stopping at the first failure. -/
def TakeWhile (xs : List α) (matchFunction : α → Bool) : List α :=
  match xs with
  | [] => []
  | x :: rest => if matchFunction x then x :: TakeWhile rest matchFunction else []

/-- Embeds the counting loop of `SkipWhile` (lines 483-494): `skipNumber` is
incremented while the match function returns true and the loop breaks at the
first failure. -/
def skipNumber (xs : List α) (matchFunction : α → Bool) : Nat :=
  match xs with
  | [] => 0
  | x :: rest => if matchFunction x then skipNumber rest matchFunction + 1 else 0

/-- Embeds `SkipWhile` (lines 481-497): count the matching prefix, then
delegate to `Skip`. -/
def SkipWhile (xs : List α) (matchFunction : α → Bool) : Except String (List α) :=
  Skip xs (skipNumber xs matchFunction)

/-- The counted prefix never exceeds the collection's size, so the delegated
`Skip` cannot throw. -/
theorem skipNumber_le (xs : List α) (p : α → Bool) : skipNumber xs p ≤ xs.length := by
  induction xs with
  | nil => simp [skipNumber]
  | cons x rest ih =>
    simp only [skipNumber, List.length_cons]
    split
    · omega
    · omega

/-- The taken prefix concatenated with the rest of the collection restores
the collection. -/
theorem takeWhile_append_drop (xs : List α) (p : α → Bool) :
    TakeWhile xs p ++ xs.drop (skipNumber xs p) = xs := by
  induction xs with
  | nil => rfl
  | cons x rest ih =>
    by_cases hx : p x = true
    · simp only [TakeWhile, skipNumber, hx, if_pos, List.cons_append, List.drop_succ_cons]
      rw [ih]
    · simp [TakeWhile, skipNumber, hx]

/-- Every element of the taken prefix satisfies the match function. -/
theorem mem_takeWhile (xs : List α) (p : α → Bool) :
    ∀ a ∈ TakeWhile xs p, p a = true := by
  induction xs with
  | nil => simp [TakeWhile]
  | cons x rest ih =>
    by_cases hx : p x = true
    · simp only [TakeWhile, hx, if_pos]
      intro a ha
      rcases List.mem_cons.mp ha with h | h
      · rw [h]; exact hx
      · exact ih a h
    · simp [TakeWhile, hx]

/-- The first element left after skipping the counted prefix fails the match
function. -/
theorem drop_skipNumber_head (xs : List α) (p : α → Bool) :
    ∀ z zs, xs.drop (skipNumber xs p) = z :: zs → p z = false := by
  induction xs with
  | nil => intro z zs h; simp [skipNumber] at h
  | cons x rest ih =>
    intro z zs h
    by_cases hx : p x = true
    · rw [skipNumber, if_pos hx, List.drop_succ_cons] at h
      exact ih z zs h
    · rw [skipNumber, if_neg hx, List.drop_zero] at h
      cases h
      exact Bool.eq_false_iff.mpr hx

/-- C9: `TakeWhile(p)` and `SkipWhile(p)` partition the collection:
`SkipWhile` succeeds (never throws), the taken prefix followed by the skipped
remainder is the original collection, every taken element satisfies `p`, and
the prefix is maximal because the first remaining element (when present)
fails `p`. -/
theorem clinq_c9 (xs : List α) (p : α → Bool) :
    ∃ ys, SkipWhile xs p = Except.ok ys ∧
      TakeWhile xs p ++ ys = xs ∧
      (∀ a ∈ TakeWhile xs p, p a = true) ∧
      (∀ z zs, ys = z :: zs → p z = false) := by
  refine ⟨xs.drop (skipNumber xs p), ?_, takeWhile_append_drop xs p, mem_takeWhile xs p, ?_⟩
  · have h := skipNumber_le xs p
    have h2 : ¬ (xs.length < skipNumber xs p) := by omega
    simp [SkipWhile, Skip, h2]
  · intro z zs h
    exact drop_skipNumber_head xs p z zs h

/-- Witness for C9 at the collection `[1, 2, 9, 3]` with the predicate
testing for values below 5: the prefix `[1, 2]` is taken and `[9, 3]`
remains. -/
theorem clinq_c9_witness :
    ∃ ys, SkipWhile ([1, 2, 9, 3] : List Nat) (fun n => decide (n < 5)) = Except.ok ys ∧
      TakeWhile ([1, 2, 9, 3] : List Nat) (fun n => decide (n < 5)) ++ ys = [1, 2, 9, 3] ∧
      (∀ a ∈ TakeWhile ([1, 2, 9, 3] : List Nat) (fun n => decide (n < 5)), (fun n => decide (n < 5)) a = true) ∧
      (∀ z zs, ys = z :: zs → (fun n => decide (n < 5)) z = false) :=
  clinq_c9 ([1, 2, 9, 3] : List Nat) (fun n => decide (n < 5))

/-- Embeds the assignment `map[keySelector(element)] = valueSelector(element)`
performed by `ToMapCore` (lines 683-696) on the association list of the map:
`std::map::operator[]` followed by assignment overwrites the entry holding the
key when one exists and inserts a new entry otherwise. -/
def mapAssign [DecidableEq κ] (m : List (κ × ν)) (key : κ) (value : ν) : List (κ × ν) :=
  if m.any (fun entry => decide (entry.1 = key)) = true then
    m.map (fun entry => if entry.1 = key then (key, value) else entry)
  else m ++ [(key, value)]

/-- Embeds `ToMap` (lines 634-640), which delegates to `ToMapCore`: fold the
assignment over the elements of the collection, starting from an empty map.
The `std::map` is modelled by its association list of key-value entries. -/
def ToMap [DecidableEq κ] (xs : List α) (keySelector : α → κ) (valueSelector : α → ν) :
    List (κ × ν) :=
  xs.foldl (fun m element => mapAssign m (keySelector element) (valueSelector element)) []

/-- Lookup in the association list modelling the map: the value of the entry
holding the key, if one exists. -/
def mapLookup [DecidableEq κ] (m : List (κ × ν)) (key : κ) : Option ν :=
  match m with
  | [] => none
  | entry :: rest => if entry.1 = key then some entry.2 else mapLookup rest key

/-- Overwriting the entry of one key does not change lookups of other keys. -/
theorem mapLookup_map_overwrite [DecidableEq κ] (rest : List (κ × ν)) (key : κ) (value : ν)
    (k : κ) (h1 : ¬ (key = k)) :
    mapLookup (rest.map (fun entry => if entry.1 = key then (key, value) else entry)) k
      = mapLookup rest k := by
  induction rest with
  | nil => rfl
  | cons p rest ih =>
    simp only [List.map_cons, mapLookup]
    by_cases hp : p.1 = key
    · have hpk : ¬ (p.1 = k) := by rw [hp]; exact h1
      rw [if_pos hp]
      simp only [mapLookup]
      rw [if_neg h1, if_neg hpk, ih]
    · rw [if_neg hp]
      by_cases hk : p.1 = k
      · rw [if_pos hk, if_pos hk]
      · rw [if_neg hk, if_neg hk, ih]

/-- The assignment updates the lookup at its key and preserves every other
lookup. -/
theorem mapLookup_mapAssign [DecidableEq κ] (m : List (κ × ν)) (key : κ) (value : ν)
    (k : κ) :
    mapLookup (mapAssign m key value) k
      = if k = key then some value else mapLookup m k := by
  induction m with
  | nil =>
    by_cases hk : k = key
    · simp [mapAssign, mapLookup, hk]
    · have h1 : ¬ (key = k) := fun h => hk h.symm
      simp [mapAssign, mapLookup, hk, h1]
  | cons p rest ih =>
    by_cases hp : p.1 = key
    · have hany : ((p :: rest).any (fun entry => decide (entry.1 = key))) = true := by
        simp [hp]
      simp only [mapAssign, hany, if_pos, List.map_cons, if_pos hp]
      by_cases hk : k = key
      · subst hk
        simp [mapLookup]
      · have h1 : ¬ (key = k) := fun h => hk h.symm
        have hpk : ¬ (p.1 = k) := by rw [hp]; exact h1
        simp only [mapLookup]
        rw [if_neg h1, if_neg hk, if_neg hpk]
        exact mapLookup_map_overwrite rest key value k h1
    · have hstep : mapAssign (p :: rest) key value = p :: mapAssign rest key value := by
        cases hb : rest.any (fun entry => decide (entry.1 = key)) with
        | true => simp [mapAssign, hp, hb]
        | false => simp [mapAssign, hp, hb]
      rw [hstep]
      simp only [mapLookup]
      by_cases hk : p.1 = k
      · have hkk : ¬ (k = key) := by
          intro h
          exact hp (by rw [hk, h])
        rw [if_pos hk, if_neg hkk, if_pos hk]
      · rw [if_neg hk, if_neg hk] at *
        rw [ih]

/-- Folding the assignments gives the value of the last element projecting to
the key: the lookup after the fold is decided by the most recent assignment. -/
theorem mapLookup_toMapFold [DecidableEq κ] (ks : α → κ) (vs : α → ν) (xs : List α) :
    ∀ (m : List (κ × ν)) (k : κ),
      mapLookup (xs.foldl (fun m element => mapAssign m (ks element) (vs element)) m) k
        = match xs.reverse.find? (fun e => decide (ks e = k)) with
          | some e => some (vs e)
          | none => mapLookup m k := by
  induction xs with
  | nil => intro m k; rfl
  | cons e rest ih =>
    intro m k
    rw [List.foldl_cons, ih, List.reverse_cons, List.find?_append]
    cases hfind : rest.reverse.find? (fun e => decide (ks e = k)) with
    | some w => simp [Option.or]
    | none =>
      simp only [Option.or, mapLookup_mapAssign]
      by_cases hk : k = ks e
      · have h2 : (decide (ks e = k)) = true := by simp [hk]
        simp [List.find?, h2, hk]
      · have h2 : (decide (ks e = k)) = false := by
          simp
          intro hcon
          exact absurd hcon.symm hk
        simp [List.find?, h2, hk]

/-- C7: `ToMap(keySelector, valueSelector)` maps each projected key to the
value projected from the last element (in insertion order) with that key:
the lookup of `k` is `valueSelector` of the last element whose key is `k`
(found as the first match in the reversed collection); in particular the
spec's example `[1, 2].ToMap(id, i => i*i)` gives lookups `1 -> 1` and
`2 -> 4`. -/
theorem clinq_c7 [DecidableEq κ] (xs : List α) (ks : α → κ) (vs : α → ν) (k : κ) :
    mapLookup (ToMap xs ks vs) k
      = Option.map vs (xs.reverse.find? (fun e => decide (ks e = k))) ∧
    mapLookup (ToMap ([1, 2] : List Int) (fun i => i) (fun i => i * i)) 1 = some 1 ∧
    mapLookup (ToMap ([1, 2] : List Int) (fun i => i) (fun i => i * i)) 2 = some 4 := by
  refine ⟨?_, by rfl, by rfl⟩
  rw [ToMap, mapLookup_toMapFold ks vs xs [] k]
  cases xs.reverse.find? (fun e => decide (ks e = k)) with
  | some w => rfl
  | none => rfl

/-- Models the value `std::set(_elements.begin(), _elements.end())`
constructed inside `ToSet` (lines 623-626): a `std::set` holds one copy of
each inserted element in ascending key order, embedded here as a strictly
sorted list built by inserting the elements in turn.  Note that the
surrounding source function is ill-formed: it declares the return type
`std::list<TElement>` while returning this `std::set`, so the construction
below models the documented intent of `ToSet`, not a compilable function. -/
def setInsert [LinearOrder α] (s : List α) (value : α) : List α :=
  match s with
  | [] => [value]
  | y :: rest =>
    if value < y then value :: y :: rest
    else if value = y then y :: rest
    else y :: setInsert rest value

/-- The contents of the `std::set` built from the collection's elements. -/
def toSetContents [LinearOrder α] (xs : List α) : List α :=
  xs.foldl setInsert []

/-- Inserting into the set adds exactly the inserted element to the members. -/
theorem mem_setInsert [LinearOrder α] (s : List α) (v a : α) :
    a ∈ setInsert s v ↔ a = v ∨ a ∈ s := by
  induction s with
  | nil => simp [setInsert]
  | cons y rest ih =>
    simp only [setInsert]
    by_cases hlt : v < y
    · simp [hlt]
    · rw [if_neg hlt]
      by_cases heq : v = y
      · subst heq
        rw [if_pos rfl]
        simp only [List.mem_cons]
        tauto
      · rw [if_neg heq]
        simp only [List.mem_cons, ih]
        tauto

/-- Inserting into a strictly sorted set keeps it strictly sorted. -/
theorem sorted_setInsert [LinearOrder α] (s : List α) (v : α)
    (h : s.Sorted (· < ·)) : (setInsert s v).Sorted (· < ·) := by
  induction s with
  | nil => simp [setInsert]
  | cons y rest ih =>
    obtain ⟨hy, hrest⟩ := List.sorted_cons.mp h
    simp only [setInsert]
    by_cases hlt : v < y
    · rw [if_pos hlt]
      apply List.sorted_cons.mpr
      refine ⟨?_, h⟩
      intro b hb
      rcases List.mem_cons.mp hb with hb | hb
      · rw [hb]; exact hlt
      · exact lt_trans hlt (hy b hb)
    · rw [if_neg hlt]
      by_cases heq : v = y
      · rw [if_pos heq]; exact h
      · rw [if_neg heq]
        apply List.sorted_cons.mpr
        refine ⟨?_, ih hrest⟩
        intro b hb
        rcases (mem_setInsert rest v b).mp hb with hb | hb
        · rw [hb]
          rcases lt_trichotomy v y with hc | hc | hc
          · exact absurd hc hlt
          · exact absurd hc heq
          · exact hc
        · exact hy b hb

/-- Folding the insertions preserves the members of the accumulator and adds
those of the inserted list. -/
theorem mem_foldl_setInsert [LinearOrder α] (xs : List α) :
    ∀ (acc : List α) (a : α), a ∈ xs.foldl setInsert acc ↔ a ∈ acc ∨ a ∈ xs := by
  induction xs with
  | nil => intro acc a; simp
  | cons x rest ih =>
    intro acc a
    rw [List.foldl_cons, ih, mem_setInsert]
    simp only [List.mem_cons]
    tauto

/-- Folding the insertions preserves strict sortedness. -/
theorem sorted_foldl_setInsert [LinearOrder α] (xs : List α) :
    ∀ acc : List α, acc.Sorted (· < ·) → (xs.foldl setInsert acc).Sorted (· < ·) := by
  induction xs with
  | nil => intro acc h; exact h
  | cons x rest ih =>
    intro acc h
    rw [List.foldl_cons]
    exact ih _ (sorted_setInsert acc x h)

/-- C8 (intent): the `std::set` value that `ToSet` constructs holds exactly
the distinct elements of the collection — membership matches the source
collection, and the set is strictly sorted with no duplicate elements.  The
source function itself cannot return it (see `setInsert`), which is the
recorded code bug. -/
theorem clinq_c8_setModel [LinearOrder α] (xs : List α) :
    (∀ a, a ∈ toSetContents xs ↔ a ∈ xs) ∧
    (toSetContents xs).Sorted (· < ·) ∧
    (toSetContents xs).Nodup := by
  have hsorted : (toSetContents xs).Sorted (· < ·) :=
    sorted_foldl_setInsert xs [] List.sorted_nil
  refine ⟨?_, hsorted, hsorted.nodup⟩
  intro a
  rw [toSetContents, mem_foldl_setInsert xs [] a]
  simp

end CLinq
